import Mathlib

/-!
Shallow embedding of the reader package of bitc-lang/go-compileutil.

The embedding follows the Go source: `reader` (the concrete implementation of
the Reader interface), the position values `Pos` / `RawPos`, and the
construction entry points.  Go machine integers (`int`, the `Offset` alias)
are modeled as `Int`; bytes as `Nat` below 256.  Fallible operations return
a result value; a Go runtime panic (explicit `panic(...)` calls as well as
out-of-range slice indexing) is modeled by a dedicated `Res.panic` outcome
that carries no state.
-/

/- Byte values (Go byte = uint8); all inputs used here stay below 256. -/
abbrev Byte := Nat

/-- Errors distinguished by the Go code: io.EOF, any other error coming out of
a Read call, the construction-time rejection of block devices and irregular
files (errors.New in setReaderAttrs), and errors surfaced by os.Open/os.Stat. -/
inductive RError where
  | eof
  | ioFailure
  | invalidSource
  | osError
deriving DecidableEq

/-- Outcome of running Go code that may panic: a normal value, or a runtime
panic (which aborts, carrying no state). -/
inductive Res (α : Type) where
  | ok (a : α)
  | panic
deriving DecidableEq

/-- One result of a source.Read call: the bytes delivered together with the
error returned alongside them (`none` models a nil error). -/
abbrev ReadRes := List Byte × Option RError

/-- Model of an fs.File as seen through Read: the prescribed results of the
successive Read calls.  Once the list is exhausted, further reads return
(no bytes, io.EOF), which is how a regular file behaves at end of file. -/
abbrev Src := List ReadRes

/-- The reader struct of the Go code.  `source = none` models a nil source. -/
structure Reader where
  name : String
  content : List Byte
  lines : List Int
  offset : Int
  updatedTo : Int
  source : Option Src
  ioChunkSize : Nat
  isCharDevice : Bool
  closeSource : Bool
  err : Option RError
deriving DecidableEq

def blockChunkSize : Nat := 1024
def ttyChunkSize : Nat := 1

/-- Go sort.Search: binary search for the least index in [0, n) at which f
holds, returning n when there is none.  The Go loop runs while i < j; the
interval shrinks at every iteration, so n iterations always suffice; the
fuel argument makes that explicit and keeps the recursion structural. -/
def sortSearchAux (f : Nat → Bool) : Nat → Nat → Nat → Nat
  | 0, i, _ => i
  | fuel + 1, i, j =>
    if i < j then
      if f ((i + j) / 2) then sortSearchAux f fuel i ((i + j) / 2)
      else sortSearchAux f fuel ((i + j) / 2 + 1) j
    else i

def sortSearch (n : Nat) (f : Nat → Bool) : Nat :=
  sortSearchAux f n 0 n

/-- The line starts contributed by content positions lo ≤ i < hi: for each
line-feed byte at i, the offset i+1 (updateLines loop body). -/
def newLineStarts (content : List Byte) (lo hi : Nat) : List Int :=
  ((List.range' lo (hi - lo)).filter (fun i => content.getD i 0 == 10)).map
    (fun (i : Nat) => (i : Int) + 1)

/-- updateLines: scan content from updatedTo for line feeds, appending the
start offset of every line found, then mark the index current to the end
of content. -/
def updateLines (r : Reader) : Reader :=
  { r with
    lines := r.lines ++ newLineStarts r.content r.updatedTo.toNat r.content.length,
    updatedTo := (r.content.length : Int) }

/-- Request size for one Read call: the bytes still needed, rounded up to a
multiple of ioChunkSize when that exceeds 1.  The Go code rounds with
nBytes += chunk-1; nBytes &= -chunk, which for the power-of-two chunk size
used (1024) equals the ceiling division below. -/
def reqSize (need chunk : Nat) : Nat :=
  if 1 < chunk then ((need + chunk - 1) / chunk) * chunk else need

/-- The read loop of expandTo: while content does not cover o and no error is
latched, issue one Read.  A Read result carrying an error other than io.EOF
makes the Go code panic; otherwise the delivered bytes are appended before
the error (if any) is latched and the condition is rechecked. -/
def fillLoop (o : Int) (chunk : Nat) :
    Src → List Byte → Option RError → Res (List Byte × Option RError × Src)
  | src, content, err =>
    if (content.length : Int) ≤ o ∧ err = none then
      match src with
      | [] => .ok (content, some RError.eof, [])
      | (bs, e) :: rest =>
        let got := bs.take (reqSize ((o - content.length).toNat + 1) chunk)
        if e = none ∨ e = some RError.eof then
          fillLoop o chunk rest (content ++ got) e
        else
          .panic
    else
      .ok (content, err, src)

/-- The tail of expandTo after its read loop: record the new content, latched
error and remaining source, extend the line index over the newly appended
span, then succeed iff the buffer now covers o (updateLines leaves content
unchanged, so the length test is on c) and otherwise return the latched
error. -/
def expandToFinish (r : Reader) (o : Int) (c : List Byte) (e : Option RError)
    (s : Src) : Res (Reader × Option RError) :=
  if o < (c.length : Int) then
    .ok (updateLines { r with content := c, err := e, source := some s }, none)
  else
    .ok (updateLines { r with content := c, err := e, source := some s }, e)

/-- expandTo: read bytes until the content buffer contains offset o.  Returns
the updated reader and the error returned by the Go function (none = nil). -/
def expandTo (r : Reader) (o : Int) : Res (Reader × Option RError) :=
  if o < (r.content.length : Int) then .ok (r, none)
  else if r.ioChunkSize = 0 ∨ r.source = none then .ok (r, some RError.eof)
  else
    match fillLoop o r.ioChunkSize (r.source.getD []) r.content r.err with
    | .panic => .panic
    | .ok (c, e, s) => expandToFinish r o c e s

/-- ByteAt: the byte at offset o, filling as needed.  On error the Go code
returns the zero byte together with the error.  Indexing r.content[o] with a
negative o would panic at runtime in Go, hence the dedicated panic case. -/
def ByteAt (r : Reader) (o : Int) : Res (Reader × Byte × Option RError) :=
  match expandTo r o with
  | .panic => .panic
  | .ok (r', some e) => .ok (r', 0, some e)
  | .ok (r', none) =>
    if (r'.content.length : Int) ≤ o then .ok (r', 0, some RError.eof)
    else if o < 0 then .panic
    else .ok (r', r'.content.getD o.toNat 0, none)

/-- SetOffset: reposition the cursor, reading any bytes necessary for the
offset to be valid; the cursor is assigned only after ByteAt succeeds. -/
def SetOffset (r : Reader) (o : Int) : Res (Reader × Option RError) :=
  if (r.content.length : Int) ≤ o then
    match ByteAt r o with
    | .panic => .panic
    | .ok (r', _, some e) => .ok (r', some e)
    | .ok (r', _, none) => .ok ({ r' with offset := o }, none)
  else .ok ({ r with offset := o }, none)

/-- Peek: the byte at the current offset, without advancing. -/
def Peek (r : Reader) : Res (Reader × Byte × Option RError) :=
  ByteAt r r.offset

/-- Next: the byte at the current offset; the offset advances iff ByteAt
returned no error. -/
def Next (r : Reader) : Res (Reader × Byte × Option RError) :=
  match ByteAt r r.offset with
  | .panic => .panic
  | .ok (r', b, none) => .ok ({ r' with offset := r'.offset + 1 }, b, none)
  | .ok (r', b, some e) => .ok (r', b, some e)

/-- IsAtEOI: sticky report of the latched terminal state. -/
def IsAtEOI (r : Reader) : Bool :=
  r.err ≠ none

/-- fileName: when adjusted, first force content up to o-1 (panicking, as the
Go code does, if that fails); the name itself is the reader's name. -/
def fileName (r : Reader) (o : Int) (adjusted : Bool) : Res (Reader × String) :=
  if adjusted then
    match expandTo r (o - 1) with
    | .panic => .panic
    | .ok (_, some _) => .panic
    | .ok (r', none) => .ok (r', r'.name)
  else .ok (r, r.name)

/-- line: force content up to o-1 (panicking on failure, as the Go code does),
then binary-search the line table for the first start offset greater than o;
the result is 1-relative.  The Go closure indexes r.lines[i] only for
i < len(r.lines); the default supplied to getD is never reached. -/
def line (r : Reader) (o : Int) (adjusted : Bool) : Res (Reader × Int) :=
  match expandTo r (o - 1) with
  | .panic => .panic
  | .ok (_, some _) => .panic
  | .ok (r', none) =>
    .ok (r', (sortSearch r'.lines.length
      (fun i => decide (o < r'.lines.getD i (o + 1))) : Int))

/-- NameLineAndColumn: name, 1-based line and column for offset o; offsets
beyond the content length report line and column 0.  Indexing r.lines[l]
out of range would panic at runtime in Go, hence the panic case. -/
def NameLineAndColumn (r : Reader) (o : Int) (adjusted : Bool) :
    Res (Reader × String × Int × Int) :=
  match fileName r o adjusted with
  | .panic => .panic
  | .ok (r1, s) =>
    if (r1.content.length : Int) < o then .ok (r1, s, 0, 0)
    else
      match line r1 o adjusted with
      | .panic => .panic
      | .ok (r2, ln) =>
        let l := ln - 1
        if l < 0 ∨ (r2.lines.length : Int) ≤ l then .panic
        else
          let off := o - r2.lines.getD l.toNat 0
          .ok (r2, s, 1 + l, 1 + off)

/-- Filename coordinate of NameLineAndColumn. -/
def Filename (r : Reader) (o : Int) (adjusted : Bool) : Res (Reader × String) :=
  match NameLineAndColumn r o adjusted with
  | .panic => .panic
  | .ok (r', s, _, _) => .ok (r', s)

/-- Line coordinate of NameLineAndColumn. -/
def Line (r : Reader) (o : Int) (adjusted : Bool) : Res (Reader × Int) :=
  match NameLineAndColumn r o adjusted with
  | .panic => .panic
  | .ok (r', _, l, _) => .ok (r', l)

/-- Column coordinate of NameLineAndColumn. -/
def Column (r : Reader) (o : Int) (adjusted : Bool) : Res (Reader × Int) :=
  match NameLineAndColumn r o adjusted with
  | .panic => .panic
  | .ok (r', _, _, c) => .ok (r', c)

/-- PositionString: name, then :line:column when the line is valid, then the
offset suffix — (o) when o is within the content length, (o > length)
beyond it, and nothing when o is negative. -/
def PositionString (r : Reader) (o : Int) (adjusted : Bool) :
    Res (Reader × String) :=
  match NameLineAndColumn r o adjusted with
  | .panic => .panic
  | .ok (r', nm, ln, col) =>
    let s := if 0 < ln then nm ++ ":" ++ toString ln ++ ":" ++ toString col else nm
    if o < 0 then .ok (r', s)
    else if o ≤ (r'.content.length : Int) then
      .ok (r', s ++ " (" ++ toString o ++ ")")
    else
      .ok (r', s ++ " (" ++ toString o ++ " > " ++ toString r'.content.length ++ ")")

/-- AddContent: append bytes to a live reader and extend the line index. -/
def AddContent (r : Reader) (bs : List Byte) : Reader :=
  updateLines { r with content := r.content ++ bs }

/-- The reader value built by OnFile around a successfully opened source. -/
def onFileReader (name : String) (data : Src) : Reader :=
  { name := name
    content := []
    lines := [0]
    offset := 0
    updatedTo := 0
    source := some data
    ioChunkSize := blockChunkSize
    isCharDevice := false
    closeSource := true
    err := none }

/-- OnFile: open the named file (the outcome of os.Open is passed in) and
build a reader on it.  The Go function performs no other check and reads no
byte: in particular it never calls setReaderAttrs. -/
def OnFile (name : String) (openRes : Except RError Src) : Except RError Reader :=
  match openRes with
  | .error e => .error e
  | .ok data => .ok (onFileReader name data)

/-- onNamedBytes: a reader over fixed in-memory content; the line index is
built eagerly.  The Go function always returns a nil error. -/
def onNamedBytes (name : String) (content : List Byte) : Reader :=
  updateLines
    { name := name
      content := content
      lines := [0]
      offset := 0
      updatedTo := 0
      source := none
      ioChunkSize := 0
      isCharDevice := false
      closeSource := false
      err := none }

def OnBytes (content : List Byte) : Reader :=
  onNamedBytes "<[]byte>" content

/-- UTF-8 bytes of a string; every input used in this development is ASCII,
for which the code points below are exactly the UTF-8 bytes. -/
def strBytes (s : String) : List Byte :=
  s.data.map Char.toNat

def OnString (s : String) : Reader :=
  onNamedBytes "<string>" (strBytes s)

/-- The file mode classifications that setReaderAttrs extracts from the
fs.FileInfo bit mask; the four cases used by the code are mutually
exclusive. -/
inductive FileMode where
  | regular
  | charDevice
  | blockDevice
  | irregular
deriving DecidableEq

structure FInfo where
  mode : FileMode
  size : Int
deriving DecidableEq

/-- setReaderAttrs: classify the source by its stat result — character
devices get the tty chunk size, block devices and irregular files are
rejected, regular files are eagerly filled to their reported size.
This function is defined in the Go source but is never called by OnFile. -/
def setReaderAttrs (statRes : Except RError FInfo) (r : Reader) :
    Res (Reader × Option RError) :=
  match statRes with
  | .error e => .ok (r, some e)
  | .ok fi =>
    let r1 := if fi.mode = FileMode.charDevice then
        { r with isCharDevice := true, ioChunkSize := ttyChunkSize }
      else { r with isCharDevice := false }
    if fi.mode = FileMode.blockDevice ∨ fi.mode = FileMode.irregular then
      .ok (r1, some RError.invalidSource)
    else if fi.mode = FileMode.regular then
      match expandTo r1 (fi.size - 1) with
      | .panic => .panic
      | .ok (r2, some e) => .ok (r2, some e)
      | .ok (r2, none) => .ok (r2, none)
    else .ok (r1, none)

/-- A position value: a reader reference and an offset (reader.Pos). -/
structure RPos where
  input : Reader
  off : Int

/-- Pos.Line: the line coordinate, respecting line directives (adjusted). -/
def posLine (p : RPos) : Res (Reader × Int) :=
  Line p.input p.off true

/-- RawPos.Line as written in the Go source: it calls Column, not Line, with
adjusted=false (its own doc comment says it returns the line number). -/
def rawPosLine (p : RPos) : Res (Reader × Int) :=
  Column p.input p.off false

/-- RawPos.Column: the column coordinate, ignoring line directives. -/
def rawPosColumn (p : RPos) : Res (Reader × Int) :=
  Column p.input p.off false

/-! ## Specification-side notions and invariants -/

/-- The index of the first entry of l strictly greater than o, and the length
of l when there is none (the spec's description of the line lookup result). -/
def firstIdxGT (l : List Int) (o : Int) : Nat :=
  match l with
  | [] => 0
  | e :: rest => if o < e then 0 else firstIdxGT rest o + 1

/-- a is an initial segment of b: buffered content only ever grows by
appending, so bytes once buffered are never evicted or changed. -/
def ContPref (a b : List Byte) : Prop :=
  ∃ t, a ++ t = b

/-- The line-table invariant of a reader: the first line starts at offset 0,
the start offsets are strictly increasing and all lie at or below updatedTo,
which itself lies between 0 and the content length. -/
def RInv (r : Reader) : Prop :=
  r.lines.head? = some 0 ∧ r.lines.Pairwise (· < ·) ∧
  (∀ e ∈ r.lines, e ≤ r.updatedTo) ∧ 0 ≤ r.updatedTo ∧
  r.updatedTo ≤ (r.content.length : Int)

instance (r : Reader) : Decidable (RInv r) :=
  decidable_of_iff
    (r.lines.head? = some 0 ∧ r.lines.Pairwise (· < ·) ∧
      (∀ e ∈ r.lines, e ≤ r.updatedTo) ∧ 0 ≤ r.updatedTo ∧
      r.updatedTo ≤ (r.content.length : Int)) Iff.rfl

/-- The operations a client can run against a live reader. -/
inductive Op where
  | byteAt (o : Int)
  | peek
  | next
  | setOffset (o : Int)
  | expand (o : Int)
  | addContent (bs : List Byte)

/-- The reader state after one operation; none when the operation panics. -/
def stepOp (r : Reader) : Op → Option Reader
  | .byteAt o =>
    match ByteAt r o with
    | .panic => none
    | .ok (r', _, _) => some r'
  | .peek =>
    match Peek r with
    | .panic => none
    | .ok (r', _, _) => some r'
  | .next =>
    match Next r with
    | .panic => none
    | .ok (r', _, _) => some r'
  | .setOffset o =>
    match SetOffset r o with
    | .panic => none
    | .ok (r', _) => some r'
  | .expand o =>
    match expandTo r o with
    | .panic => none
    | .ok (r', _) => some r'
  | .addContent bs => some (AddContent r bs)

/-- Reflexive-transitive closure of single operations. -/
inductive Reaches : Reader → Reader → Prop where
  | refl (r : Reader) : Reaches r r
  | tail {r a b : Reader} (op : Op) : Reaches r a → stepOp a op = some b → Reaches r b

/-- Readers as built by the construction entry points (OnFile around an
opened source, or onNamedBytes, which OnBytes and OnString wrap). -/
def Initial (r : Reader) : Prop :=
  (∃ nm data, r = onFileReader nm data) ∨ (∃ nm bs, r = onNamedBytes nm bs)

/-- A reader state arising from construction followed by any sequence of
non-panicking operations. -/
def Reachable (r : Reader) : Prop :=
  ∃ r0, Initial r0 ∧ Reaches r0 r

/-! ## Basic lemmas about content growth -/

theorem contPref_rfl (a : List Byte) : ContPref a a :=
  ⟨[], List.append_nil a⟩

theorem contPref_append (a t : List Byte) : ContPref a (a ++ t) :=
  ⟨t, rfl⟩

theorem ContPref.trans {a b c : List Byte} (h1 : ContPref a b) (h2 : ContPref b c) :
    ContPref a c := by
  obtain ⟨t, rfl⟩ := h1
  obtain ⟨u, rfl⟩ := h2
  exact ⟨t ++ u, (List.append_assoc a t u).symm⟩

theorem ContPref.length_le {a b : List Byte} (h : ContPref a b) :
    a.length ≤ b.length := by
  obtain ⟨t, rfl⟩ := h
  simp

theorem ContPref.getD_eq {a b : List Byte} (h : ContPref a b) {i : Nat}
    (hi : i < a.length) (d : Byte) : b.getD i d = a.getD i d := by
  obtain ⟨t, rfl⟩ := h
  exact List.getD_append a t d i hi

/-! ## Lemmas about the line index -/

theorem newLineStarts_mem {c : List Byte} {lo hi : Nat} {e : Int}
    (h : e ∈ newLineStarts c lo hi) :
    ∃ i : Nat, lo ≤ i ∧ i < lo + (hi - lo) ∧ e = (i : Int) + 1 := by
  obtain ⟨i, hi2, rfl⟩ := List.mem_map.mp h
  have hir := (List.mem_filter.mp hi2).1
  rw [List.mem_range'_1] at hir
  exact ⟨i, hir.1, hir.2, rfl⟩

theorem newLineStarts_pairwise (c : List Byte) (lo hi : Nat) :
    (newLineStarts c lo hi).Pairwise (· < ·) := by
  unfold newLineStarts
  rw [List.pairwise_map]
  refine List.Pairwise.filter _ (List.Pairwise.imp ?_ (List.pairwise_lt_range' lo (hi - lo)))
  intro a b hab
  omega

theorem rinv_updateLines {r : Reader}
    (h1 : r.lines.head? = some 0) (h2 : r.lines.Pairwise (· < ·))
    (h3 : ∀ e ∈ r.lines, e ≤ r.updatedTo) (h4 : 0 ≤ r.updatedTo)
    (h5 : r.updatedTo ≤ (r.content.length : Int)) :
    RInv (updateLines r) := by
  have hnew : ∀ e ∈ newLineStarts r.content r.updatedTo.toNat r.content.length,
      r.updatedTo < e ∧ e ≤ (r.content.length : Int) := by
    intro e he
    obtain ⟨i, hlo, hhi, rfl⟩ := newLineStarts_mem he
    omega
  refine ⟨?_, ?_, ?_, ?_, ?_⟩
  · show (r.lines ++ _).head? = some 0
    rw [List.head?_append, h1]
    rfl
  · show (r.lines ++ _).Pairwise (· < ·)
    rw [List.pairwise_append]
    exact ⟨h2, newLineStarts_pairwise _ _ _,
      fun a ha b hb => lt_of_le_of_lt (h3 a ha) (hnew b hb).1⟩
  · show ∀ e ∈ r.lines ++ _, e ≤ (r.content.length : Int)
    intro e he
    rcases List.mem_append.mp he with h | h
    · exact le_trans (h3 e h) h5
    · exact (hnew e h).2
  · show (0 : Int) ≤ (r.content.length : Int)
    exact Int.natCast_nonneg _
  · exact le_refl _

/-! ## Lemmas about the fill loop -/

theorem fillLoop_spec (o : Int) (chunk : Nat) (src : Src) :
    ∀ (content : List Byte) (err : Option RError) (c : List Byte)
      (e : Option RError) (s : Src),
      fillLoop o chunk src content err = .ok (c, e, s) →
      ContPref content c ∧
      ((err = none ∨ err = some RError.eof) →
        (e = none ∨ e = some RError.eof)) ∧
      ((c.length : Int) ≤ o → e ≠ none) := by
  induction src with
  | nil =>
    intro content err c e s h
    rw [fillLoop] at h
    split at h
    · cases h
      exact ⟨contPref_rfl _, fun _ => Or.inr rfl, fun _ => by simp⟩
    · rename_i hcond
      cases h
      refine ⟨contPref_rfl _, fun he => he, fun hle => ?_⟩
      intro hnone
      exact hcond ⟨hle, hnone⟩
  | cons hd rest ih =>
    obtain ⟨bs, e0⟩ := hd
    intro content err c e s h
    rw [fillLoop] at h
    split at h
    · simp only at h
      split at h
      · rename_i hgood
        obtain ⟨hpref, herr, hexit⟩ := ih _ _ _ _ _ h
        refine ⟨(contPref_append content _).trans hpref, fun _ => herr hgood, hexit⟩
      · cases h
    · rename_i hcond
      cases h
      refine ⟨contPref_rfl _, fun he => he, fun hle => ?_⟩
      intro hnone
      exact hcond ⟨hle, hnone⟩

/-! ## Lemmas about expandTo and the byte-level operations -/

theorem updateLines_content (r : Reader) : (updateLines r).content = r.content := rfl
theorem updateLines_offset (r : Reader) : (updateLines r).offset = r.offset := rfl
theorem updateLines_name (r : Reader) : (updateLines r).name = r.name := rfl

theorem rinv_offset {r : Reader} {x : Int} : RInv { r with offset := x } ↔ RInv r :=
  Iff.rfl

theorem expandToFinish_spec (r : Reader) (o : Int) (c : List Byte)
    (e1 : Option RError) (s : Src) {r' : Reader} {e : Option RError}
    (h : expandToFinish r o c e1 s = .ok (r', e)) :
    r' = updateLines { r with content := c, err := e1, source := some s } ∧
    ((o < (c.length : Int) ∧ e = none) ∨ (¬ o < (c.length : Int) ∧ e = e1)) := by
  unfold expandToFinish at h
  split at h
  · rename_i hlt
    cases h
    exact ⟨rfl, Or.inl ⟨hlt, rfl⟩⟩
  · rename_i hnlt
    cases h
    exact ⟨rfl, Or.inr ⟨hnlt, rfl⟩⟩

theorem expandTo_spec (r : Reader) (o : Int) {r' : Reader} {e : Option RError}
    (h : expandTo r o = .ok (r', e)) :
    r'.offset = r.offset ∧ r'.name = r.name ∧ ContPref r.content r'.content ∧
    ((r.err = none ∨ r.err = some RError.eof) →
      (r'.err = none ∨ r'.err = some RError.eof)) ∧
    (e = none → o < (r'.content.length : Int)) ∧
    ((r.err = none ∨ r.err = some RError.eof) → ∀ e0, e = some e0 →
      e0 = RError.eof ∧ (r'.content.length : Int) ≤ o) ∧
    (RInv r → RInv r') := by
  unfold expandTo at h
  split at h
  · rename_i hlt
    cases h
    refine ⟨rfl, rfl, contPref_rfl _, fun he => he, fun _ => hlt, ?_, fun hi => hi⟩
    intro _ e0 he
    exact Option.noConfusion he
  · rename_i hnlt
    split at h
    · cases h
      refine ⟨rfl, rfl, contPref_rfl _, fun he => he, ?_, ?_, fun hi => hi⟩
      · intro hc
        exact Option.noConfusion hc
      · intro _ e0 he
        cases he
        exact ⟨rfl, by omega⟩
    · split at h
      · exact (Res.noConfusion h)
      · rename_i c e1 s heq
        obtain ⟨hpref, herr, hexit⟩ := fillLoop_spec o r.ioChunkSize _ _ _ _ _ _ heq
        obtain ⟨hr', hcase⟩ := expandToFinish_spec r o c e1 s h
        subst hr'
        refine ⟨rfl, rfl, hpref, fun he => herr he, ?_, ?_, ?_⟩
        · intro hc
          show o < (c.length : Int)
          rcases hcase with ⟨hlt, _⟩ | ⟨hnlt, he1⟩
          · exact hlt
          · rw [hc] at he1
            exact absurd he1.symm (hexit (by omega))
        · intro he e0 he0
          rcases hcase with ⟨hlt, hen⟩ | ⟨hnlt, he1⟩
          · rw [hen] at he0
            exact Option.noConfusion he0
          · rw [he1] at he0
            rcases herr he with h0 | h0
            · rw [h0] at he0
              exact Option.noConfusion he0
            · rw [h0] at he0
              refine ⟨(Option.some.inj he0).symm, ?_⟩
              show (c.length : Int) ≤ o
              omega
        · intro hi
          obtain ⟨h1, h2, h3, h4, h5⟩ := hi
          exact rinv_updateLines h1 h2 h3 h4
            (le_trans h5 (by exact_mod_cast hpref.length_le))

theorem byteAt_spec (r : Reader) (o : Int) {r' : Reader} {b : Byte} {e : Option RError}
    (h : ByteAt r o = .ok (r', b, e)) :
    r'.offset = r.offset ∧ r'.name = r.name ∧ ContPref r.content r'.content ∧
    ((r.err = none ∨ r.err = some RError.eof) →
      (r'.err = none ∨ r'.err = some RError.eof)) ∧
    (RInv r → RInv r') ∧
    (e = none → 0 ≤ o ∧ o < (r'.content.length : Int) ∧ b = r'.content.getD o.toNat 0) ∧
    ((r.err = none ∨ r.err = some RError.eof) → ∀ e0, e = some e0 →
      e0 = RError.eof ∧ (r'.content.length : Int) ≤ o ∧ b = 0) := by
  unfold ByteAt at h
  split at h
  · exact (Res.noConfusion h)
  · rename_i r1 e1 heq
    cases h
    obtain ⟨ho, hn, hp, herr, _, hsome, hinv⟩ := expandTo_spec r o heq
    refine ⟨ho, hn, hp, herr, hinv, ?_, ?_⟩
    · intro hc
      exact Option.noConfusion hc
    · intro he e0 he0
      obtain ⟨ha, hb⟩ := hsome he e0 he0
      exact ⟨ha, hb, rfl⟩
  · rename_i r1 heq
    obtain ⟨ho, hn, hp, herr, hnone, _, hinv⟩ := expandTo_spec r o heq
    split at h
    · rename_i hge
      cases h
      refine ⟨ho, hn, hp, herr, hinv, ?_, ?_⟩
      · intro hc
        exact Option.noConfusion hc
      · intro _ e0 he0
        cases he0
        exact ⟨rfl, hge, rfl⟩
    · split at h
      · exact (Res.noConfusion h)
      · rename_i hge hneg
        cases h
        refine ⟨ho, hn, hp, herr, hinv, fun _ => ⟨by omega, by omega, rfl⟩, ?_⟩
        intro _ e0 he0
        exact Option.noConfusion he0

theorem setOffset_spec (r : Reader) (o : Int) {r' : Reader} {e : Option RError}
    (h : SetOffset r o = .ok (r', e)) :
    r'.name = r.name ∧ ContPref r.content r'.content ∧ (RInv r → RInv r') ∧
    ((r.err = none ∨ r.err = some RError.eof) →
      (r'.err = none ∨ r'.err = some RError.eof)) ∧
    (∀ e0, e = some e0 → r'.offset = r.offset) ∧
    (e = none → r'.offset = o) := by
  unfold SetOffset at h
  split at h
  · split at h
    · exact (Res.noConfusion h)
    · rename_i r1 b e1 heq
      cases h
      obtain ⟨ho, hn, hp, herr, hinv, _, _⟩ := byteAt_spec r o heq
      refine ⟨hn, hp, hinv, herr, fun e0 he0 => ho, ?_⟩
      intro hc
      exact Option.noConfusion hc
    · rename_i r1 b heq
      cases h
      obtain ⟨ho, hn, hp, herr, hinv, _, _⟩ := byteAt_spec r o heq
      refine ⟨hn, hp, fun h0 => rinv_offset.mpr (hinv h0), herr, ?_, fun _ => rfl⟩
      intro e0 he0
      exact Option.noConfusion he0
  · cases h
    refine ⟨rfl, contPref_rfl _, fun h0 => rinv_offset.mpr h0, fun he => he, ?_,
      fun _ => rfl⟩
    intro e0 he0
    exact Option.noConfusion he0

theorem next_spec (r : Reader) {r' : Reader} {b : Byte} {e : Option RError}
    (h : Next r = .ok (r', b, e)) :
    r'.name = r.name ∧ ContPref r.content r'.content ∧ (RInv r → RInv r') ∧
    ((r.err = none ∨ r.err = some RError.eof) →
      (r'.err = none ∨ r'.err = some RError.eof)) ∧
    (e = none → r'.offset = r.offset + 1 ∧ 0 ≤ r.offset ∧
      r.offset < (r'.content.length : Int) ∧ b = r'.content.getD r.offset.toNat 0) ∧
    (∀ e0, e = some e0 → r'.offset = r.offset) := by
  unfold Next at h
  split at h
  · exact (Res.noConfusion h)
  · rename_i r1 b1 heq
    cases h
    obtain ⟨ho, hn, hp, herr, hinv, hok, _⟩ := byteAt_spec r r.offset heq
    refine ⟨hn, hp, fun h0 => rinv_offset.mpr (hinv h0), herr, fun _ => ?_, ?_⟩
    · obtain ⟨h1, h2, h3⟩ := hok rfl
      exact ⟨by rw [ho], h1, h2, h3⟩
    · intro e0 he0
      exact Option.noConfusion he0
  · rename_i r1 b1 e1 heq
    cases h
    obtain ⟨ho, hn, hp, herr, hinv, _, _⟩ := byteAt_spec r r.offset heq
    refine ⟨hn, hp, hinv, herr, ?_, fun e0 he0 => ho⟩
    intro hc
    exact Option.noConfusion hc

theorem addContent_pres (r : Reader) (bs : List Byte) :
    ContPref r.content (AddContent r bs).content ∧
    (RInv r → RInv (AddContent r bs)) := by
  constructor
  · exact contPref_append _ _
  · rintro ⟨h1, h2, h3, h4, h5⟩
    refine rinv_updateLines h1 h2 h3 h4 (le_trans h5 ?_)
    simp

theorem stepOp_pres {r : Reader} {op : Op} {r' : Reader} (h : stepOp r op = some r') :
    ContPref r.content r'.content ∧ (RInv r → RInv r') := by
  cases op with
  | byteAt o =>
    simp only [stepOp] at h
    split at h
    · exact (Option.noConfusion h)
    · rename_i r1 b e heq
      cases h
      obtain ⟨_, _, hp, _, hinv, _, _⟩ := byteAt_spec r o heq
      exact ⟨hp, hinv⟩
  | peek =>
    simp only [stepOp, Peek] at h
    split at h
    · exact (Option.noConfusion h)
    · rename_i r1 b e heq
      cases h
      obtain ⟨_, _, hp, _, hinv, _, _⟩ := byteAt_spec r r.offset heq
      exact ⟨hp, hinv⟩
  | next =>
    simp only [stepOp] at h
    split at h
    · exact (Option.noConfusion h)
    · rename_i r1 b e heq
      cases h
      obtain ⟨_, hp, hinv, _, _, _⟩ := next_spec r heq
      exact ⟨hp, hinv⟩
  | setOffset o =>
    simp only [stepOp] at h
    split at h
    · exact (Option.noConfusion h)
    · rename_i r1 e heq
      cases h
      obtain ⟨_, hp, hinv, _, _, _⟩ := setOffset_spec r o heq
      exact ⟨hp, hinv⟩
  | expand o =>
    simp only [stepOp] at h
    split at h
    · exact (Option.noConfusion h)
    · rename_i r1 e heq
      cases h
      obtain ⟨_, _, hp, _, _, _, hinv⟩ := expandTo_spec r o heq
      exact ⟨hp, hinv⟩
  | addContent bs =>
    simp only [stepOp] at h
    cases h
    exact addContent_pres r bs

theorem reaches_pres {a b : Reader} (h : Reaches a b) :
    ContPref a.content b.content ∧ (RInv a → RInv b) := by
  induction h with
  | refl => exact ⟨contPref_rfl _, id⟩
  | tail op hr hs ih =>
    obtain ⟨hp, hi⟩ := stepOp_pres hs
    exact ⟨ih.1.trans hp, fun h0 => hi (ih.2 h0)⟩

theorem initial_rinv {r : Reader} (h : Initial r) : RInv r := by
  rcases h with ⟨nm, data, rfl⟩ | ⟨nm, bs, rfl⟩
  · refine ⟨rfl, ?_, ?_, le_refl _, le_refl _⟩
    · simp [onFileReader]
    · intro e he
      simp only [onFileReader, List.mem_singleton] at he
      subst he
      exact le_refl _
  · refine rinv_updateLines rfl ?_ ?_ (le_refl _) ?_
    · simp
    · intro e he
      simp only [List.mem_singleton] at he
      subst he
      exact le_refl _
    · exact Int.natCast_nonneg _

theorem reachable_rinv {r : Reader} (h : Reachable r) : RInv r := by
  obtain ⟨r0, hi, hr⟩ := h
  exact (reaches_pres hr).2 (initial_rinv hi)

/-! ## Correctness of the binary search and the line computation -/

theorem sortSearchAux_spec (f : Nat → Bool)
    (hmono : ∀ a b, a ≤ b → f a = true → f b = true) :
    ∀ (fuel i j : Nat), i ≤ j → j - i ≤ fuel →
      i ≤ sortSearchAux f fuel i j ∧ sortSearchAux f fuel i j ≤ j ∧
      (∀ k, i ≤ k → k < sortSearchAux f fuel i j → f k = false) ∧
      (sortSearchAux f fuel i j < j → f (sortSearchAux f fuel i j) = true) := by
  intro fuel
  induction fuel with
  | zero =>
    intro i j hij hfuel
    have hij2 : i = j := by omega
    subst hij2
    rw [sortSearchAux]
    exact ⟨le_refl _, le_refl _, fun k hk1 hk2 => by omega, fun hlt => by omega⟩
  | succ fuel ih =>
    intro i j hij hfuel
    rw [sortSearchAux]
    split
    · rename_i hlt
      split
      · rename_i hf
        have hmle : i ≤ (i + j) / 2 := by omega
        have hmlt : (i + j) / 2 < j := by omega
        obtain ⟨h1, h2, h3, h4⟩ := ih i ((i + j) / 2) hmle (by omega)
        refine ⟨h1, by omega, h3, fun hrj => ?_⟩
        by_cases hrm : sortSearchAux f fuel i ((i + j) / 2) < (i + j) / 2
        · exact h4 hrm
        · have heq : sortSearchAux f fuel i ((i + j) / 2) = (i + j) / 2 := by omega
          rw [heq]
          exact hf
      · rename_i hf
        have hmle : (i + j) / 2 + 1 ≤ j := by omega
        obtain ⟨h1, h2, h3, h4⟩ := ih ((i + j) / 2 + 1) j hmle (by omega)
        refine ⟨by omega, h2, fun k hk1 hk2 => ?_, h4⟩
        by_cases hkm : k ≤ (i + j) / 2
        · cases hfk : f k
          · rfl
          · exact absurd (hmono k ((i + j) / 2) hkm hfk) hf
        · exact h3 k (by omega) hk2
    · rename_i hnlt
      exact ⟨le_refl _, hij, fun k hk1 hk2 => by omega, fun h0 => by omega⟩

theorem sortSearch_spec (n : Nat) (f : Nat → Bool)
    (hmono : ∀ a b, a ≤ b → f a = true → f b = true) :
    sortSearch n f ≤ n ∧
    (∀ k, k < sortSearch n f → f k = false) ∧
    (sortSearch n f < n → f (sortSearch n f) = true) := by
  obtain ⟨h1, h2, h3, h4⟩ := sortSearchAux_spec f hmono n 0 n (by omega) (by omega)
  exact ⟨h2, fun k hk => h3 k (by omega) hk, h4⟩

theorem getD_default_irrel {l : List Int} {k : Nat} (h : k < l.length)
    (d1 d2 : Int) : l.getD k d1 = l.getD k d2 := by
  rw [List.getD_eq_getElem l d1 h, List.getD_eq_getElem l d2 h]

/-- Monotonicity of the binary-search predicate of the line lookup over a
strictly increasing line table: entries past the end of the table take the
out-of-range default o+1, for which the predicate holds as well. -/
theorem linesPred_mono {l : List Int} (hp : l.Pairwise (· < ·)) (o : Int) :
    ∀ a b, a ≤ b → decide (o < l.getD a (o + 1)) = true →
      decide (o < l.getD b (o + 1)) = true := by
  intro a b hab ha
  rw [decide_eq_true_eq] at ha ⊢
  by_cases hb : b < l.length
  · have haL : a < l.length := lt_of_le_of_lt hab hb
    rw [List.getD_eq_getElem _ _ hb]
    rw [List.getD_eq_getElem _ _ haL] at ha
    rcases Nat.eq_or_lt_of_le hab with heq | hlt
    · subst heq
      exact ha
    · have := List.pairwise_iff_getElem.mp hp a b haL hb hlt
      omega
  · rw [List.getD_eq_default _ _ (by omega)]
    omega

theorem countP_eq_of_cut (p : Int → Bool) :
    ∀ (l : List Int) (r : Nat), r ≤ l.length →
      (∀ k, k < r → p (l.getD k 0) = true) →
      (∀ k, r ≤ k → k < l.length → p (l.getD k 0) = false) →
      l.countP p = r := by
  intro l
  induction l with
  | nil =>
    intro r hr _ _
    have : r = 0 := by simpa using hr
    subst this
    rfl
  | cons a t ih =>
    intro r hr h1 h2
    cases r with
    | zero =>
      have ha : p a = false := by
        have := h2 0 (le_refl 0) (by simp)
        simpa using this
      rw [List.countP_cons_of_neg _ _ (by simp [ha])]
      refine ih 0 (by omega) (fun k hk => by omega) ?_
      intro k _ hk
      have := h2 (k + 1) (by omega) (by simpa using Nat.succ_lt_succ hk)
      simpa [List.getD_cons_succ] using this
    | succ r' =>
      have ha : p a = true := by
        have := h1 0 (by omega)
        simpa using this
      rw [List.countP_cons_of_pos _ _ ha]
      have ht : t.countP p = r' := by
        refine ih r' (by simpa using hr) ?_ ?_
        · intro k hk
          have := h1 (k + 1) (by omega)
          simpa [List.getD_cons_succ] using this
        · intro k hk1 hk2
          have := h2 (k + 1) (by omega) (by simpa using Nat.succ_lt_succ hk2)
          simpa [List.getD_cons_succ] using this
      omega

/-- The Go binary search over a sorted line table returns the number of line
starts at or below o. -/
theorem line_search_eq_countP {l : List Int} (hp : l.Pairwise (· < ·)) (o : Int) :
    sortSearch l.length (fun i => decide (o < l.getD i (o + 1))) =
      l.countP (fun e => decide (e ≤ o)) := by
  obtain ⟨hle, hbelow, habove⟩ := sortSearch_spec l.length _ (linesPred_mono hp o)
  refine (countP_eq_of_cut _ l _ hle ?_ ?_).symm
  · intro k hk
    have hkL : k < l.length := lt_of_lt_of_le hk hle
    have := hbelow k hk
    rw [decide_eq_false_iff_not] at this
    rw [getD_default_irrel hkL 0 (o + 1)]
    rw [decide_eq_true_eq]
    omega
  · intro k hk1 hk2
    set s := sortSearch l.length (fun i => decide (o < l.getD i (o + 1))) with hs
    have hsL : s < l.length := lt_of_le_of_lt hk1 hk2
    have hups := habove hsL
    rw [decide_eq_true_eq, List.getD_eq_getElem _ _ hsL] at hups
    rw [decide_eq_false_iff_not, List.getD_eq_getElem _ _ hk2]
    rcases Nat.eq_or_lt_of_le hk1 with heq | hlt
    · subst heq
      omega
    · have := List.pairwise_iff_getElem.mp hp s k hsL hk2 hlt
      omega

/-- The spec-side description of the line lookup agrees with the count of
line starts at or below o when the table is sorted. -/
theorem firstIdxGT_eq_countP {l : List Int} (hp : l.Pairwise (· < ·)) (o : Int) :
    firstIdxGT l o = l.countP (fun e => decide (e ≤ o)) := by
  induction l with
  | nil => rfl
  | cons a t ih =>
    rw [firstIdxGT]
    split
    · rename_i hlt
      rw [List.countP_cons_of_neg _ _ (by simpa using (by omega : ¬ a ≤ o))]
      rw [List.countP_eq_zero.mpr]
      intro x hx
      have hax := (List.pairwise_cons.mp hp).1 x hx
      simpa using (by omega : ¬ x ≤ o)
    · rename_i hge
      rw [List.countP_cons_of_pos _ _ (by simpa using (by omega : a ≤ o))]
      rw [ih (List.Pairwise.of_cons hp)]

theorem firstIdxGT_le_length (l : List Int) (o : Int) :
    firstIdxGT l o ≤ l.length := by
  induction l with
  | nil => exact le_refl 0
  | cons a t ih =>
    rw [firstIdxGT]
    split
    · simp
    · simpa using ih

theorem firstIdxGT_pos {l : List Int} (h0 : l.head? = some 0) {o : Int}
    (ho : 0 ≤ o) : 1 ≤ firstIdxGT l o := by
  cases l with
  | nil => cases h0
  | cons a t =>
    have ha : a = 0 := by simpa using h0
    subst ha
    rw [firstIdxGT, if_neg (by omega)]
    omega

theorem fileName_false (r : Reader) (o : Int) :
    fileName r o false = .ok (r, r.name) := rfl

theorem line_eval (r : Reader) (o : Int) (adjusted : Bool)
    (hb : o - 1 < (r.content.length : Int)) :
    line r o adjusted =
      .ok (r, (sortSearch r.lines.length
        (fun i => decide (o < r.lines.getD i (o + 1))) : Int)) := by
  unfold line
  have hx : expandTo r (o - 1) = .ok (r, none) := by
    unfold expandTo
    rw [if_pos hb]
  rw [hx]

/-- Evaluation of NameLineAndColumn at an offset within the buffer, with
the result expressed through the spec-side first-entry-greater description
of the line lookup. -/
theorem nameLineAndColumn_eval {r : Reader} {o : Int}
    (h0 : r.lines.head? = some 0) (hp : r.lines.Pairwise (· < ·))
    (ho : 0 ≤ o) (hb : o ≤ (r.content.length : Int)) :
    NameLineAndColumn r o false =
      .ok (r, r.name, (firstIdxGT r.lines o : Int),
        1 + (o - r.lines.getD (firstIdxGT r.lines o - 1) 0)) := by
  have hL1 : 1 ≤ firstIdxGT r.lines o := firstIdxGT_pos h0 ho
  have hLle : firstIdxGT r.lines o ≤ r.lines.length := firstIdxGT_le_length _ _
  have hsearch : sortSearch r.lines.length
      (fun i => decide (o < r.lines.getD i (o + 1))) = firstIdxGT r.lines o := by
    rw [line_search_eq_countP hp o, firstIdxGT_eq_countP hp o]
  have hline := line_eval r o false (by omega)
  rw [hsearch] at hline
  unfold NameLineAndColumn
  rw [fileName_false]
  simp only [hline]
  rw [if_neg (by omega)]
  rw [if_neg (by omega : ¬ ((firstIdxGT r.lines o : Int) - 1 < 0 ∨
    (r.lines.length : Int) ≤ (firstIdxGT r.lines o : Int) - 1))]
  have h1 : (1 : Int) + ((firstIdxGT r.lines o : Int) - 1) =
      (firstIdxGT r.lines o : Int) := by omega
  have h2 : ((firstIdxGT r.lines o : Int) - 1).toNat = firstIdxGT r.lines o - 1 := by
    omega
  rw [h1, h2]

/-- Evaluation of ByteAt at an already-buffered offset: no fill, no state
change, the buffered byte is returned. -/
theorem byteAt_buffered {r : Reader} {o : Int} (h0 : 0 ≤ o)
    (hb : o < (r.content.length : Int)) :
    ByteAt r o = .ok (r, r.content.getD o.toNat 0, none) := by
  have hx : expandTo r o = .ok (r, none) := by
    unfold expandTo
    rw [if_pos hb]
  simp only [ByteAt, hx]
  rw [if_neg (by omega), if_neg (by omega)]

theorem nameLineAndColumn_past (r : Reader) (o : Int)
    (h : (r.content.length : Int) < o) :
    NameLineAndColumn r o false = .ok (r, r.name, 0, 0) := by
  simp only [NameLineAndColumn, fileName_false]
  rw [if_pos h]

/-! ## Concrete readers for the scenario checks -/

def rABC : Reader := OnString "abc"
def rAD : Reader := OnString "abc\ndef"
def rABCnext : Reader := { rABC with offset := 1 }
def rADnext : Reader := { rAD with offset := 1 }

/-- A source whose first read fails with a non-EOF I/O error. -/
def badSrc : Src := [([], some RError.ioFailure)]
def rBad : Reader := onFileReader "bad" badSrc

/-- A source delivering "ab", then "c" together with io.EOF. -/
def fileSrc : Src := [(strBytes "ab", none), (strBytes "c", some RError.eof)]
def rFile : Reader := onFileReader "f" fileSrc

/-- The state of rFile after filling to offset 2: all three bytes buffered,
EOF latched alongside the data, source exhausted, line index current. -/
def rFileFilled : Reader :=
  { name := "f"
    content := strBytes "abc"
    lines := [0]
    offset := 0
    updatedTo := 3
    source := some []
    ioChunkSize := blockChunkSize
    isCharDevice := false
    closeSource := true
    err := some RError.eof }

/-- A one-byte readable source standing for an opened block device. -/
def blkSrc : Src := [([7], none)]

/-! ## The claims -/

/-- Claim C1, counterexample: on a reader whose underlying source fails with
a non-EOF I/O error, ByteAt(0) panics (the Go fill path calls panic on any
read error other than io.EOF); the error is therefore not propagated to the
caller as an ordinary result. -/
theorem byteAt_io_failure_panics : ByteAt rBad 0 = Res.panic := by decide

/-- Claim C1, amended: ByteAt(o) returns the byte at o, filling as needed,
and fails with EndOfInput (io.EOF) when o is not covered by the content;
EndOfInput is the only error it ever returns as an ordinary result, because
any other read error makes the fill path panic instead of returning.
(The hypothesis states that the latched error of the reader is at most EOF,
which holds in every state the non-panicking code can produce.) -/
theorem byteAt_error_propagation (r : Reader) (o : Int)
    (hlatch : r.err = none ∨ r.err = some RError.eof) :
    (∀ r' b, ByteAt r o = .ok (r', b, none) →
      0 ≤ o ∧ o < (r'.content.length : Int) ∧ b = r'.content.getD o.toNat 0) ∧
    (∀ r' b e0, ByteAt r o = .ok (r', b, some e0) →
      e0 = RError.eof ∧ (r'.content.length : Int) ≤ o ∧ b = 0) := by
  constructor
  · intro r' b h
    exact (byteAt_spec r o h).2.2.2.2.2.1 rfl
  · intro r' b e0 h
    obtain ⟨_, _, _, _, _, _, hsome⟩ := byteAt_spec r o h
    exact hsome hlatch e0 rfl

/-- Claim C1, witness: a file-backed reader fills to offset 2 and returns
byte 99 together with the characterization of the amended theorem; at
offset 5 of an in-memory reader the returned error is EndOfInput. -/
theorem byteAt_error_propagation_witness :
    (rFile.err = none ∨ rFile.err = some RError.eof) ∧
    ByteAt rFile 2 = .ok (rFileFilled, 99, none) ∧
    (0 ≤ (2 : Int) ∧ (2 : Int) < (rFileFilled.content.length : Int) ∧
      99 = rFileFilled.content.getD (2 : Int).toNat 0) ∧
    ByteAt rABC 5 = .ok (rABC, 0, some RError.eof) ∧
    (RError.eof = RError.eof ∧ (rABC.content.length : Int) ≤ 5 ∧ 0 = 0) :=
  ⟨Or.inl rfl, by decide,
    (byteAt_error_propagation rFile 2 (Or.inl rfl)).1 rFileFilled 99 (by decide),
    by decide,
    (byteAt_error_propagation rABC 5 (Or.inl rfl)).2 rABC 0 RError.eof (by decide)⟩

/-- Claim C2, code evaluated at the failing input: OnFile performs no device
classification and reads no byte — opening a block device succeeds with a
working reader (content still empty), while setReaderAttrs, which the Go
source defines but never calls from OnFile, would have rejected the same
source with InvalidSource. -/
theorem onFile_accepts_block_device :
    OnFile "/dev/blk" (.ok blkSrc) = .ok (onFileReader "/dev/blk" blkSrc) ∧
    (onFileReader "/dev/blk" blkSrc).content = [] ∧
    setReaderAttrs (.ok ⟨FileMode.blockDevice, 4096⟩)
        (onFileReader "/dev/blk" blkSrc) =
      .ok ({ onFileReader "/dev/blk" blkSrc with isCharDevice := false },
        some RError.invalidSource) :=
  ⟨rfl, rfl, by decide⟩

/-- Claim C3: backtracking — if offset o was buffered in state r0 (byte b at
o), then after any sequence of operations reaching r1, SetOffset(o) succeeds
without moving anything else and Peek() returns exactly that byte. -/
theorem setOffset_peek_backtracking (r0 r1 : Reader) (o : Int) (h0 : 0 ≤ o)
    (hb : o < (r0.content.length : Int)) (hr : Reaches r0 r1) :
    SetOffset r1 o = .ok ({ r1 with offset := o }, none) ∧
    Peek { r1 with offset := o } =
      .ok ({ r1 with offset := o }, r0.content.getD o.toNat 0, none) := by
  have hpref := (reaches_pres hr).1
  have hlen : (r0.content.length : Int) ≤ (r1.content.length : Int) := by
    exact_mod_cast hpref.length_le
  have hbN : o.toNat < r0.content.length := by omega
  constructor
  · unfold SetOffset
    rw [if_neg (by omega)]
  · show ByteAt { r1 with offset := o } o = _
    rw [byteAt_buffered h0 (by show o < (r1.content.length : Int); omega)]
    have hget : r1.content.getD o.toNat 0 = r0.content.getD o.toNat 0 :=
      hpref.getD_eq hbN 0
    have hget2 : ({ r1 with offset := o } : Reader).content.getD o.toNat 0 =
        r0.content.getD o.toNat 0 := hget
    rw [hget2]

/-- Claim C3, witness: on "abc", after one Next, SetOffset(1) then Peek
returns byte 98, the byte originally buffered at offset 1. -/
theorem setOffset_peek_backtracking_witness :
    (0 : Int) ≤ 1 ∧ (1 : Int) < (rABC.content.length : Int) ∧
    (SetOffset rABCnext 1 = .ok ({ rABCnext with offset := 1 }, none) ∧
      Peek { rABCnext with offset := 1 } =
        .ok ({ rABCnext with offset := 1 }, rABC.content.getD (1 : Int).toNat 0,
          none)) :=
  ⟨by decide, by decide,
    setOffset_peek_backtracking rABC rABCnext 1 (by decide) (by decide)
      (Reaches.tail Op.next (Reaches.refl rABC) (by decide))⟩

/-- Claim C4: for every buffered offset o, the line/column resolution returns
as 1-based line number the index of the first lineStarts entry strictly
greater than o (computed by the binary search) and as column
1 + (o - lineStarts[line-1]); in particular, over "abc\ndef", offset 0
resolves to line 1 column 1 and offset 4 to line 2 column 1. -/
theorem line_column_resolution :
    (∀ (r : Reader) (o : Int), RInv r → 0 ≤ o → o < (r.content.length : Int) →
      NameLineAndColumn r o false =
        .ok (r, r.name, (firstIdxGT r.lines o : Int),
          1 + (o - r.lines.getD (firstIdxGT r.lines o - 1) 0))) ∧
    NameLineAndColumn rAD 0 false = .ok (rAD, "<string>", 1, 1) ∧
    NameLineAndColumn rAD 4 false = .ok (rAD, "<string>", 2, 1) := by
  refine ⟨?_, by decide, by decide⟩
  intro r o hinv h0 hb
  exact nameLineAndColumn_eval hinv.1 hinv.2.1 h0 (le_of_lt hb)

/-- Claim C4, witness: the general clause applied over "abc\ndef" at
offset 4: line 2 (the index of the first line start greater than 4, counting
from the table [0, 4]), column 1. -/
theorem line_column_resolution_witness :
    RInv rAD ∧ (0 : Int) ≤ 4 ∧ (4 : Int) < (rAD.content.length : Int) ∧
    NameLineAndColumn rAD 4 false =
      .ok (rAD, rAD.name, (firstIdxGT rAD.lines 4 : Int),
        1 + (4 - rAD.lines.getD (firstIdxGT rAD.lines 4 - 1) 0)) :=
  ⟨by decide, by decide, by decide,
    line_column_resolution.1 rAD 4 (by decide) (by decide) (by decide)⟩

/-- Claim C5, counterexample: over "abc\ndef" the line reported for offset 0
is 1, while 1 + count(lineStarts[i] ≤ 0) = 1 + 1 = 2 (lineStarts = [0, 4]),
so the claimed formula overcounts by one. -/
theorem line_count_off_by_one :
    Line rAD 0 false = .ok (rAD, 1) ∧
    1 + rAD.lines.countP (fun e => decide (e ≤ (0 : Int))) = 2 := by
  constructor
  · decide
  · decide

/-- Claim C5, amended: for every buffered offset o the reported line number
equals count(lineStarts[i] ≤ o) — without the extra 1 of the claim, which
is already contributed by the entry lineStarts[0] = 0 ≤ o. -/
theorem line_eq_count_le (r : Reader) (o : Int) (hinv : RInv r) (h0 : 0 ≤ o)
    (hb : o < (r.content.length : Int)) :
    Line r o false =
      .ok (r, (r.lines.countP (fun e => decide (e ≤ o)) : Int)) := by
  simp only [Line, nameLineAndColumn_eval hinv.1 hinv.2.1 h0 (le_of_lt hb),
    firstIdxGT_eq_countP hinv.2.1 o]

/-- Claim C5, witness: over "abc\ndef" at offset 4 the reported line is the
count of line starts at or below 4, namely 2. -/
theorem line_eq_count_le_witness :
    RInv rAD ∧ (0 : Int) ≤ 4 ∧ (4 : Int) < (rAD.content.length : Int) ∧
    Line rAD 4 false =
      .ok (rAD, (rAD.lines.countP (fun e => decide (e ≤ (4 : Int))) : Int)) :=
  ⟨by decide, by decide, by decide,
    line_eq_count_le rAD 4 (by decide) (by decide) (by decide)⟩

/-- Claim C6, code evaluated at the failing input: at offset 4 of "abc\ndef"
the position is line 2, column 1 (with adjusted=false); RawPos.Line, whose
own doc comment says it returns the line number, returns 1 — the column —
because its body calls Column instead of Line. -/
theorem rawPos_line_returns_column :
    rawPosLine ⟨rAD, 4⟩ = .ok (rAD, 1) ∧ Line rAD 4 false = .ok (rAD, 2) := by
  constructor
  · decide
  · decide

/-- Claim C7, counterexample: over "abc" (3 bytes buffered) at offset 5 —
past everything ever buffered — the rendered position string is
"<string> (5 > 3)": it is not the bare name and contains no colon, so it
matches neither the claimed "name:line:column (offset > bufferedLength)"
format nor the claimed bare-name case. -/
theorem positionString_past_buffer_format :
    PositionString rABC 5 false = .ok (rABC, "<string> (5 > 3)") ∧
    "<string> (5 > 3)" ≠ "<string>" ∧
    ¬ (':' ∈ "<string> (5 > 3)".data) ∧
    ¬ (':' ∈ "<string>".data) := by
  refine ⟨by decide, by decide, by decide, by decide⟩

/-- Claim C7, amended: for offsets 0 ≤ o ≤ bufferedLength the rendered string
is name:line:column (offset) with a valid line; for offsets past everything
ever buffered line and column are invalid (0) and therefore omitted, and the
rendering is name (offset > bufferedLength); the bare name alone would
require a negative offset, on which the resolution panics instead. -/
theorem positionString_format (r : Reader) (o : Int) (hinv : RInv r) :
    (0 ≤ o → o ≤ (r.content.length : Int) →
      ∃ l c : Int, NameLineAndColumn r o false = .ok (r, r.name, l, c) ∧ 0 < l ∧
        PositionString r o false =
          .ok (r, r.name ++ ":" ++ toString l ++ ":" ++ toString c ++
            " (" ++ toString o ++ ")")) ∧
    ((r.content.length : Int) < o →
      PositionString r o false =
        .ok (r, r.name ++ " (" ++ toString o ++ " > " ++
          toString r.content.length ++ ")")) := by
  constructor
  · intro h0 hb
    have hnlc := nameLineAndColumn_eval hinv.1 hinv.2.1 h0 hb
    have hL1 : 1 ≤ firstIdxGT r.lines o := firstIdxGT_pos hinv.1 h0
    refine ⟨(firstIdxGT r.lines o : Int),
      1 + (o - r.lines.getD (firstIdxGT r.lines o - 1) 0), hnlc, by omega, ?_⟩
    simp only [PositionString, hnlc]
    rw [if_pos (by omega : (0 : Int) < (firstIdxGT r.lines o : Int))]
    rw [if_neg (by omega : ¬ o < 0), if_pos hb]
  · intro h
    simp only [PositionString, nameLineAndColumn_past r o h]
    rw [if_neg (by omega : ¬ (0 : Int) < 0)]
    rw [if_neg (by omega : ¬ o < 0),
      if_neg (by omega : ¬ o ≤ (r.content.length : Int))]

/-- Claim C7, witness: over "abc", offset 1 renders as "<string>:1:2 (1)"
through the first clause, and offset 5 as "<string> (5 > 3)" through the
second. -/
theorem positionString_format_witness :
    RInv rABC ∧ (rABC.content.length : Int) < 5 ∧
    (∃ l c : Int, NameLineAndColumn rABC 1 false = .ok (rABC, rABC.name, l, c) ∧
      0 < l ∧ PositionString rABC 1 false =
        .ok (rABC, rABC.name ++ ":" ++ toString l ++ ":" ++ toString c ++
          " (" ++ toString (1 : Int) ++ ")")) ∧
    PositionString rABC 5 false =
      .ok (rABC, rABC.name ++ " (" ++ toString (5 : Int) ++ " > " ++
        toString rABC.content.length ++ ")") :=
  ⟨by decide, by decide,
    (positionString_format rABC 1 (by decide)).1 (by decide) (by decide),
    (positionString_format rABC 5 (by decide)).2 (by decide)⟩

/-- Claim C8: Next() returns the byte at the cursor and advances the cursor
by exactly one iff it succeeds; when it returns an error the cursor is
unchanged. -/
theorem next_cursor_semantics (r : Reader) :
    (∀ r' b, Next r = .ok (r', b, none) →
      r'.offset = r.offset + 1 ∧ 0 ≤ r.offset ∧
      r.offset < (r'.content.length : Int) ∧
      b = r'.content.getD r.offset.toNat 0) ∧
    (∀ r' b e0, Next r = .ok (r', b, some e0) → r'.offset = r.offset) := by
  constructor
  · intro r' b h
    obtain ⟨_, _, _, _, hok, _⟩ := next_spec r h
    exact hok rfl
  · intro r' b e0 h
    obtain ⟨_, _, _, _, _, hsome⟩ := next_spec r h
    exact hsome e0 rfl

/-- Claim C8, witness: over "abc", Next succeeds with byte 97 and moves the
cursor from 0 to 1; at the end of "abc" (cursor 3) Next fails with EOF and
leaves the cursor at 3. -/
theorem next_cursor_semantics_witness :
    Next rABC = .ok (rABCnext, 97, none) ∧
    (rABCnext.offset = rABC.offset + 1 ∧ 0 ≤ rABC.offset ∧
      rABC.offset < (rABCnext.content.length : Int) ∧
      97 = rABCnext.content.getD rABC.offset.toNat 0) ∧
    Next { rABC with offset := 3 } = .ok ({ rABC with offset := 3 }, 0,
      some RError.eof) ∧
    ({ rABC with offset := 3 } : Reader).offset =
      ({ rABC with offset := 3 } : Reader).offset :=
  ⟨by decide, (next_cursor_semantics rABC).1 rABCnext 97 (by decide),
    by decide,
    (next_cursor_semantics { rABC with offset := 3 }).2 { rABC with offset := 3 }
      0 RError.eof (by decide)⟩

/-- Claim C9: in every reachable reader state — after construction and after
any sequence of non-panicking operations — the line-start table is strictly
increasing and its first entry is 0. -/
theorem lines_strictly_increasing (r : Reader) (h : Reachable r) :
    r.lines.Pairwise (· < ·) ∧ r.lines.head? = some 0 := by
  have hi := reachable_rinv h
  exact ⟨hi.2.1, hi.1⟩

/-- Claim C9, witness: the state over "abc\ndef" after one Next is reachable
and its line table [0, 4] is strictly increasing with first entry 0. -/
theorem lines_strictly_increasing_witness :
    Reachable rADnext ∧
    (rADnext.lines.Pairwise (· < ·) ∧ rADnext.lines.head? = some 0) :=
  ⟨⟨rAD, Or.inr ⟨"<string>", strBytes "abc\ndef", rfl⟩,
      Reaches.tail Op.next (Reaches.refl rAD) (by decide)⟩,
    lines_strictly_increasing rADnext
      ⟨rAD, Or.inr ⟨"<string>", strBytes "abc\ndef", rfl⟩,
        Reaches.tail Op.next (Reaches.refl rAD) (by decide)⟩⟩

/-- Claim C10: if SetOffset(o) returns an error, the cursor is unchanged —
the cursor is assigned only after ByteAt confirms the bytes are available. -/
theorem setOffset_error_keeps_cursor (r : Reader) (o : Int) {r' : Reader}
    {e0 : RError} (h : SetOffset r o = .ok (r', some e0)) :
    r'.offset = r.offset := by
  obtain ⟨_, _, _, _, hsome, _⟩ := setOffset_spec r o h
  exact hsome e0 rfl

/-- Claim C10, witness: over "abc", SetOffset(5) fails with EOF and the
resulting state keeps cursor 0. -/
theorem setOffset_error_keeps_cursor_witness :
    SetOffset rABC 5 = .ok (rABC, some RError.eof) ∧ rABC.offset = rABC.offset :=
  ⟨by decide, @setOffset_error_keeps_cursor rABC 5 rABC RError.eof (by decide)⟩
